import Mathlib

/-!
# Verification of the Keson spectral-improver audio quality engine

Shallow embedding of the audio authenticity / quality analysis engine
(spectral analyzer, Savitzky–Golay smoother, dynamic-range estimator,
verdict classifier, report builder) found in the bot source, together
with theorems settling the frozen claims about it.

Modelling conventions:
* JavaScript numbers are embedded as exact rationals (`ℚ`) where the code
  only performs field operations and comparisons, and as real numbers
  (`ℝ`) where square roots and logarithms occur.  Decimal literals such
  as `0.78` denote the exact decimal fraction.
* `null` / absent values become `Option`; thrown classification errors
  (`TooShortError`, `SilentTrackError`) become explicit result
  constructors.
* Mutable arrays inside the FFT are embedded as functions `ℕ → ℝ`
  updated functionally; the imperative loops become folds over index
  ranges in the same iteration order as the source.
* Source-local `let` bindings (`nyquist`, `norm`, `reference`, …) are
  inlined in the embedding to keep rewriting simple; the inlined value is
  noted next to each definition.
-/

namespace Keson

/-- The `verdictKey` strings produced by `classifyVerdict`, as an enumeration. -/
inductive VerdictKey where
  | unknown
  | aac_256
  | sub_aac_lossy
  | fake
  | likely_fake
  | maybe_fake
  | maybe_authentic
  | likely_authentic
  | authentic
  deriving DecidableEq

/-- The tiered (band-dependent) threshold tables of `classifyVerdict`: the
part of the source after the AAC-256 / sub-AAC early returns.  There is one
table for `sampleRate === 48000`, one for `sampleRate > 48000`, and one
(against the fixed reference `22050`, here inlined) for everything else. -/
def classifyVerdictTiered (sampleRate maxFreq nyquist : ℚ) : VerdictKey × String :=
  if sampleRate = 48000 then
    if maxFreq < 20000 then (.fake, "Fake")
    else if maxFreq < nyquist * 0.5 then (.likely_fake, "Most likely Fake")
    else if maxFreq < nyquist * 0.8 then (.maybe_fake, "Might be Fake")
    else if maxFreq < nyquist * 0.9 then (.maybe_authentic, "Might be Authentic")
    else if maxFreq < nyquist * 0.99 then (.likely_authentic, "Most likely Authentic")
    else (.authentic, "Authentic")
  else if 48000 < sampleRate then
    if maxFreq < 22050 then (.fake, "Fake")
    else if maxFreq < nyquist * 0.5 then (.likely_fake, "Most likely Fake")
    else if maxFreq < nyquist * 0.8 then (.maybe_fake, "Might be Fake")
    else if maxFreq < nyquist * 0.9 then (.maybe_authentic, "Might be Authentic")
    else if maxFreq < nyquist * 0.99 then (.likely_authentic, "Most likely Authentic")
    else (.authentic, "Authentic")
  else
    if maxFreq < 22050 * 0.8 then (.fake, "Fake")
    else if maxFreq < 22050 * 0.85 then (.likely_fake, "Most likely Fake")
    else if maxFreq < 22050 * 0.9 then (.maybe_fake, "Might be Fake")
    else if maxFreq < 22050 * 0.95 then (.maybe_authentic, "Might be Authentic")
    else if maxFreq < 22050 * 0.99 then (.likely_authentic, "Most likely Authentic")
    else (.authentic, "Authentic")

/-- Translation of `classifyVerdict(sampleRate, maxFreq)`.
`maxFreq === null || !Number.isFinite(maxFreq)` becomes the `none` case (the
embedding has no non-finite rationals).  The source's `nyquist` is
`sampleRate / 2` and `norm` is `maxFreq / nyquist`, both inlined.  For
`sampleRate <= 48000` the AAC-256 band check (`norm` in `[0.78, 0.93]`) and
the sub-AAC check (`norm < 0.78`) run first; control then falls through to
the tiered tables. -/
def classifyVerdict (sampleRate : ℚ) (maxFreq : Option ℚ) : VerdictKey × String :=
  match maxFreq with
  | none => (.unknown, "Can't determine")
  | some maxFreq =>
    if sampleRate ≤ 48000 then
      if 0.78 ≤ maxFreq / (sampleRate / 2) ∧ maxFreq / (sampleRate / 2) ≤ 0.93 then
        (.aac_256, "Probable AAC-256 source (expected lossy)")
      else if maxFreq / (sampleRate / 2) < 0.78 then
        (.sub_aac_lossy, "Likely pre-AAC lossy source (<256 kbps)")
      else
        classifyVerdictTiered sampleRate maxFreq (sampleRate / 2)
    else
      classifyVerdictTiered sampleRate maxFreq (sampleRate / 2)

end Keson

namespace Keson

/-- C1 counterexample: at sample rate 48000 a max frequency of 19000 Hz
normalizes to 19000/24000 = 0.791…, inside the AAC-256 band [0.78, 0.93]
that is consulted first, so the classifier answers `aac_256`, not `fake`
as the claim states. -/
theorem classifyVerdict_19000_not_fake :
    (classifyVerdict 48000 (some 19000)).1 = VerdictKey.aac_256 ∧
      (classifyVerdict 48000 (some 19000)).1 ≠ VerdictKey.fake := by
  refine ⟨by norm_num [classifyVerdict, classifyVerdictTiered], ?_⟩
  have h : (classifyVerdict 48000 (some 19000)).1 = VerdictKey.aac_256 := by
    norm_num [classifyVerdict, classifyVerdictTiered]
  rw [h]
  decide

/-- C1 (amended): for sample rate 48000, a max frequency of 23760 Hz (99% of
Nyquist) classifies as `authentic`, 19000 Hz classifies as `aac_256` (its
normalized ratio 0.791… lies in the AAC band consulted first), and 20000 Hz
classifies as `aac_256`. -/
theorem classifyVerdict_roundTrip_48000 :
    (classifyVerdict 48000 (some 23760)).1 = VerdictKey.authentic ∧
      (classifyVerdict 48000 (some 19000)).1 = VerdictKey.aac_256 ∧
      (classifyVerdict 48000 (some 20000)).1 = VerdictKey.aac_256 := by
  refine ⟨?_, ?_, ?_⟩ <;> norm_num [classifyVerdict, classifyVerdictTiered]

/-- C2: for every positive sample rate ≤ 48000 and every detected max
frequency, the classifier answers `aac_256` whenever maxFreq/Nyquist lies in
[0.78, 0.93] and `sub_aac_lossy` whenever maxFreq/Nyquist < 0.78; the tiered
tables are never consulted in those cases. -/
theorem classifyVerdict_aac_band (sampleRate maxFreq : ℚ)
    (_hpos : 0 < sampleRate) (hle : sampleRate ≤ 48000) :
    ((0.78 ≤ maxFreq / (sampleRate / 2) ∧ maxFreq / (sampleRate / 2) ≤ 0.93) →
        (classifyVerdict sampleRate (some maxFreq)).1 = VerdictKey.aac_256) ∧
      (maxFreq / (sampleRate / 2) < 0.78 →
        (classifyVerdict sampleRate (some maxFreq)).1 = VerdictKey.sub_aac_lossy) := by
  constructor
  · intro hband
    simp only [classifyVerdict, if_pos hle, if_pos hband]
  · intro hlow
    have hnot : ¬(0.78 ≤ maxFreq / (sampleRate / 2) ∧ maxFreq / (sampleRate / 2) ≤ 0.93) := by
      intro h
      exact absurd hlow (not_lt.mpr h.1)
    simp only [classifyVerdict, if_pos hle, if_neg hnot, if_pos hlow]

/-- C2 witness: the theorem instantiated at sample rate 48000 with max
frequencies 20000 Hz (in band, ratio 5/6) and 15000 Hz (below the band). -/
theorem classifyVerdict_aac_band_witness :
    (classifyVerdict 48000 (some 20000)).1 = VerdictKey.aac_256 ∧
      (classifyVerdict 48000 (some 15000)).1 = VerdictKey.sub_aac_lossy :=
  ⟨(classifyVerdict_aac_band 48000 20000 (by norm_num) (by norm_num)).1 (by norm_num),
   (classifyVerdict_aac_band 48000 15000 (by norm_num) (by norm_num)).2 (by norm_num)⟩

/-- C10: at sample rate exactly 48000 the classifier's range is exactly
{unknown, sub_aac_lossy, aac_256, likely_authentic, authentic}.
Containment: every max frequency below 0.93·Nyquist is captured by the
AAC-256 / sub-AAC rules first, so `fake`, `likely_fake`, `maybe_fake` and
`maybe_authentic` are unreachable.  Attainment: `none` gives `unknown`,
15000 Hz gives `sub_aac_lossy`, 20000 Hz gives `aac_256`, 23000 Hz gives
`likely_authentic`, and 23760 Hz gives `authentic`. -/
theorem classifyVerdict_48000_range :
    (∀ maxFreq : Option ℚ,
        (classifyVerdict 48000 maxFreq).1 = VerdictKey.unknown ∨
          (classifyVerdict 48000 maxFreq).1 = VerdictKey.sub_aac_lossy ∨
          (classifyVerdict 48000 maxFreq).1 = VerdictKey.aac_256 ∨
          (classifyVerdict 48000 maxFreq).1 = VerdictKey.likely_authentic ∨
          (classifyVerdict 48000 maxFreq).1 = VerdictKey.authentic) ∧
      (∃ m, (classifyVerdict 48000 m).1 = VerdictKey.unknown) ∧
      (∃ m, (classifyVerdict 48000 m).1 = VerdictKey.sub_aac_lossy) ∧
      (∃ m, (classifyVerdict 48000 m).1 = VerdictKey.aac_256) ∧
      (∃ m, (classifyVerdict 48000 m).1 = VerdictKey.likely_authentic) ∧
      (∃ m, (classifyVerdict 48000 m).1 = VerdictKey.authentic) := by
  refine ⟨?_, ⟨none, rfl⟩, ⟨some 15000, ?_⟩, ⟨some 20000, ?_⟩, ⟨some 23000, ?_⟩,
    ⟨some 23760, ?_⟩⟩
  · intro maxFreq
    cases maxFreq with
    | none => exact Or.inl rfl
    | some f =>
      by_cases hband : (0.78 : ℚ) ≤ f / (48000 / 2) ∧ f / (48000 / 2) ≤ 0.93
      · refine Or.inr (Or.inr (Or.inl ?_))
        simp only [classifyVerdict]
        rw [if_pos (by norm_num), if_pos hband]
      · by_cases hlow : f / (48000 / 2) < 0.78
        · refine Or.inr (Or.inl ?_)
          simp only [classifyVerdict]
          rw [if_pos (by norm_num), if_neg hband, if_pos hlow]
        · have hf : 22320 < f := by
            rcases not_and_or.mp hband with h | h
            · exact absurd (not_lt.mp hlow) h
            · have h93 : (0.93 : ℚ) < f / (48000 / 2) := not_le.mp h
              norm_num at h93
              linarith
          have heq : classifyVerdict 48000 (some f) =
              classifyVerdictTiered 48000 f (48000 / 2) := by
            simp only [classifyVerdict]
            rw [if_pos (by norm_num), if_neg hband, if_neg hlow]
          rw [heq]
          simp only [classifyVerdictTiered, if_pos rfl]
          rw [if_neg (not_lt.mpr (by linarith : (20000 : ℚ) ≤ f)),
            if_neg (by norm_num; linarith : ¬ f < 48000 / 2 * 0.5),
            if_neg (by norm_num; linarith : ¬ f < 48000 / 2 * 0.8),
            if_neg (by norm_num; linarith : ¬ f < 48000 / 2 * 0.9)]
          by_cases h99 : f < 48000 / 2 * 0.99
          · rw [if_pos h99]
            exact Or.inr (Or.inr (Or.inr (Or.inl rfl)))
          · rw [if_neg h99]
            exact Or.inr (Or.inr (Or.inr (Or.inr rfl)))
  · norm_num [classifyVerdict, classifyVerdictTiered]
  · norm_num [classifyVerdict, classifyVerdictTiered]
  · norm_num [classifyVerdict, classifyVerdictTiered]
  · norm_num [classifyVerdict, classifyVerdictTiered]

end Keson

namespace Keson

/-! ## Savitzky–Golay coefficients and the hand-built linear algebra

Translations of `identityRow`, `transpose`, `multiply`, `invert` and
`getSavitzkyGolayCoefficients`.  The matrices are lists of rows of exact
rationals; the JS floating-point arithmetic is idealized to exact field
arithmetic. -/

/-- Translation of `identityRow(size, index)`. -/
def identityRow (size index : ℕ) : List ℚ :=
  (List.range size).map (fun i => if i = index then 1 else 0)

/-- Translation of `transpose(matrix)`: the source maps over the first row's
indices and collects `row[colIndex]` from every row. -/
def transpose (matrix : List (List ℚ)) : List (List ℚ) :=
  (List.range (matrix.headD []).length).map (fun c => matrix.map (fun row => row.getD c 0))

/-- Translation of `multiply(a, b)`: `result[i][j] = Σₖ a[i][k]·b[k][j]`
(the source accumulates the sum with its `i, k, j` loop nest; addition of
rationals is commutative and associative so the accumulation order is
immaterial). -/
def multiply (a b : List (List ℚ)) : List (List ℚ) :=
  (List.range a.length).map (fun i =>
    (List.range (b.headD []).length).map (fun j =>
      ((List.range b.length).map (fun k =>
        (a.getD i []).getD k 0 * (b.getD k []).getD j 0)).sum))

/-- The partial-pivoting search of `invert`: when `|augmented[i][i]| < 1e-12`,
the source scans rows `i+1 … n-1` for the first row `j` with
`|augmented[j][i]| > |pivot|`, swaps rows `i` and `j`, and breaks. -/
def pivotSwap (aug : List (List ℚ)) (n i : ℕ) : List (List ℚ) :=
  if |(aug.getD i []).getD i 0| < 1e-12 then
    match (List.range' (i + 1) (n - (i + 1))).find?
        (fun j => |(aug.getD j []).getD i 0| > |(aug.getD i []).getD i 0|) with
    | some j => (aug.set i (aug.getD j [])).set j (aug.getD i [])
    | none => aug
  else aug

/-- One column step of the Gauss–Jordan loop in `invert`: pivot search/swap,
the `throw new Error('Matrix not invertible')` branch (modelled as `none`),
normalization of row `i` by the pivot, and elimination of column `i` from
every other row (`augmented[k][j] -= factor * augmented[i][j]`). -/
def gaussStep (n i : ℕ) (aug : List (List ℚ)) : Option (List (List ℚ)) :=
  let aug1 := pivotSwap aug n i
  let pivot := (aug1.getD i []).getD i 0
  if |pivot| < 1e-12 then none
  else
    let aug2 := aug1.set i ((aug1.getD i []).map (· / pivot))
    some ((List.range n).foldl (fun acc k =>
      if k = i then acc
      else
        acc.set k (List.zipWith (fun x y => x - (acc.getD k []).getD i 0 * y)
          (acc.getD k []) (acc.getD i []))) aug2)

/-- The `for (i = 0; i < n; i++)` driver of `invert`, threading the thrown
"Matrix not invertible" error through `Option.bind`. -/
def gaussRun (n : ℕ) : List ℕ → List (List ℚ) → Option (List (List ℚ))
  | [], aug => some aug
  | i :: rest, aug => (gaussStep n i aug).bind (gaussRun n rest)

/-- Translation of `invert(matrix)`: augment with the identity, run the
Gauss–Jordan elimination, and keep the right half of each row.  `none`
models the thrown `Error('Matrix not invertible')`. -/
def invert (matrix : List (List ℚ)) : Option (List (List ℚ)) :=
  (gaussRun matrix.length (List.range matrix.length)
      (matrix.enum.map (fun p => p.2 ++ identityRow matrix.length p.1))).map
    (fun aug => aug.map (fun row => row.drop matrix.length))

/-- The Vandermonde design matrix `A` built inside
`getSavitzkyGolayCoefficients`: row `r` is `k^0, …, k^P` with
`k = r - (windowSize-1)/2`. -/
def designMatrix (windowSize polyOrder : ℕ) : List (List ℚ) :=
  (List.range windowSize).map (fun row =>
    (List.range (polyOrder + 1)).map (fun col =>
      ((row : ℚ) - ((windowSize : ℚ) - 1) / 2) ^ col))

/-- Translation of `getSavitzkyGolayCoefficients(windowSize, polyOrder)`
up to the possible inversion failure: `pinv = (AᵗA)⁻¹Aᵗ`, coefficients
`pinv[0]`.  The source memoizes results in `SG_COEFF_CACHE`, a pure
memoization of this function of `(windowSize, polyOrder)`. -/
def getSavitzkyGolayCoefficients? (windowSize polyOrder : ℕ) : Option (List ℚ) :=
  (invert (multiply (transpose (designMatrix windowSize polyOrder))
      (designMatrix windowSize polyOrder))).map
    (fun ATAInv =>
      (multiply ATAInv (transpose (designMatrix windowSize polyOrder))).headD [])

/-- The coefficient vector itself (the source throws instead of producing a
value when inversion fails, so the default is never read at (11, 2)). -/
def getSavitzkyGolayCoefficients (windowSize polyOrder : ℕ) : List ℚ :=
  (getSavitzkyGolayCoefficients? windowSize polyOrder).getD []

/-- The normal-equations matrix `AᵗA` for window 11, order 2, evaluated:
`Σk⁰ = 11`, `Σk² = 110`, `Σk⁴ = 1958` over `k = -5 … 5` (odd powers cancel). -/
theorem normalMatrix_11_2 :
    multiply (transpose (designMatrix 11 2)) (designMatrix 11 2) =
      [[11, 0, 110], [0, 110, 0], [110, 0, 1958]] := by
  norm_num [multiply, transpose, designMatrix, List.range_succ]

set_option maxHeartbeats 1000000 in
/-- First Gauss–Jordan column step on the augmented (11, 2) normal matrix. -/
theorem gaussStep_11_2_col0 :
    gaussStep 3 0 [[11, 0, 110, 1, 0, 0], [0, 110, 0, 0, 1, 0], [110, 0, 1958, 0, 0, 1]] =
      some [[1, 0, 10, 1/11, 0, 0], [0, 110, 0, 0, 1, 0], [0, 0, 858, -10, 0, 1]] := by
  norm_num [gaussStep, pivotSwap, List.range_succ, List.range']

set_option maxHeartbeats 1000000 in
/-- Second Gauss–Jordan column step. -/
theorem gaussStep_11_2_col1 :
    gaussStep 3 1 [[1, 0, 10, 1/11, 0, 0], [0, 110, 0, 0, 1, 0], [0, 0, 858, -10, 0, 1]] =
      some [[1, 0, 10, 1/11, 0, 0], [0, 1, 0, 0, 1/110, 0], [0, 0, 858, -10, 0, 1]] := by
  norm_num [gaussStep, pivotSwap, List.range_succ, List.range']

set_option maxHeartbeats 1000000 in
/-- Third Gauss–Jordan column step. -/
theorem gaussStep_11_2_col2 :
    gaussStep 3 2 [[1, 0, 10, 1/11, 0, 0], [0, 1, 0, 0, 1/110, 0], [0, 0, 858, -10, 0, 1]] =
      some [[1, 0, 0, 89/429, 0, -5/429], [0, 1, 0, 0, 1/110, 0], [0, 0, 1, -5/429, 0, 1/858]] := by
  norm_num [gaussStep, pivotSwap, List.range_succ, List.range']

/-- The inversion of the (11, 2) normal matrix succeeds and its value. -/
theorem invert_normalMatrix_11_2 :
    invert [[11, 0, 110], [0, 110, 0], [110, 0, 1958]] =
      some [[89/429, 0, -5/429], [0, 1/110, 0], [-5/429, 0, 1/858]] := by
  have key : invert [[11, 0, 110], [0, 110, 0], [110, 0, 1958]] =
      (gaussRun 3 [0, 1, 2]
          [[11, 0, 110, 1, 0, 0], [0, 110, 0, 0, 1, 0], [110, 0, 1958, 0, 0, 1]]).map
        (fun aug => aug.map (fun row => row.drop 3)) := rfl
  rw [key]
  simp only [gaussRun, gaussStep_11_2_col0, gaussStep_11_2_col1, gaussStep_11_2_col2,
    Option.some_bind, Option.map_some']
  rfl

/-- The (11, 2) Savitzky–Golay coefficient vector, evaluated exactly:
`(-36, 9, 44, 69, 84, 89, 84, 69, 44, 9, -36) / 429`. -/
theorem savitzkyGolayCoefficients_11_2 :
    getSavitzkyGolayCoefficients 11 2 =
      [-12/143, 3/143, 4/39, 23/143, 28/143, 89/429, 28/143, 23/143, 4/39, 3/143, -12/143] := by
  simp only [getSavitzkyGolayCoefficients, getSavitzkyGolayCoefficients?, normalMatrix_11_2,
    invert_normalMatrix_11_2, Option.map_some', Option.getD_some]
  norm_num [multiply, transpose, designMatrix, List.range_succ]

/-- C6: the Savitzky–Golay coefficient vector for window 11, order 2 sums to
exactly 1 in exact arithmetic (a normalized smoothing kernel), and repeated
calls with the same (window, order) return identical coefficients — the
source's `SG_COEFF_CACHE` memoizes a pure function, embedded here as a pure
function, so determinism is definitional. -/
theorem savitzkyGolay_sum_one :
    (getSavitzkyGolayCoefficients 11 2).sum = 1 ∧
      getSavitzkyGolayCoefficients 11 2 = getSavitzkyGolayCoefficients 11 2 := by
  refine ⟨?_, rfl⟩
  rw [savitzkyGolayCoefficients_11_2]
  norm_num

/-- C7: the "Matrix not invertible" branch is unreachable at the chosen
constants (11, 2): the partial-pivoting Gauss–Jordan inversion of the
normal-equations matrix `AᵗA` succeeds. -/
theorem invert_11_2_succeeds :
    invert (multiply (transpose (designMatrix 11 2)) (designMatrix 11 2)) ≠ none := by
  rw [normalMatrix_11_2, invert_normalMatrix_11_2]
  exact Option.some_ne_none _

end Keson

namespace Keson

/-! ## Dynamic Range Estimator

Translations of `analyzeChannelBlocks` and `computeDynamicRange`.  The
thrown `TooShortError` / `SilentTrackError` become the `Except` error
constructors below.  The block partition, peaks, and squared-RMS values are
exact rationals; the decibel conversion `toDb` and the final averaging are
real-valued.  The source stores the per-block RMS `√(sumSquares/blockSize)`
and sorts those; the embedding keeps the squares (√ is monotone on
nonnegatives, so sorting the squares produces the same ascending order) and
takes the square root at the real-valued layer.  The `avgPeak`/`avgRms`
by-products feed only the `avg_peak_db`/`avg_rms_db` report fields, which
no claim mentions; they are not modelled. -/

/-- The two error classes thrown by the dynamic-range analysis. -/
inductive DrError where
  | tooShort
  | silent
  deriving DecidableEq

/-- The per-channel data returned by `analyzeChannelBlocks` that determines
its `dr` value: the second-highest block peak `p2` and `rmsSum / topCount`
(the mean of the top-20% squared RMS values, whose square root is the
source's `r`). -/
structure ChanStats where
  p2 : ℚ
  topMeanSq : ℚ
  deriving DecidableEq

/-- The per-block peak loop: `if (absVal > peak) peak = absVal`, starting
from `0`. -/
def blockPeak (block : List ℚ) : ℚ :=
  block.foldl (fun peak sample => if |sample| > peak then |sample| else peak) 0

/-- The per-block `sumSquares += sample * sample` loop. -/
def blockSumSquares (block : List ℚ) : ℚ :=
  block.foldl (fun acc sample => acc + sample * sample) 0

/-- `channelSamples[start … start+blockSize)` for block index `block`
(callers pass `numBlocks = ⌊totalFrames / blockSize⌋`, so the slice is
always full-length). -/
def channelBlock (channelSamples : List ℚ) (blockSize block : ℕ) : List ℚ :=
  (channelSamples.drop (block * blockSize)).take blockSize

/-- The `peaks` array of `analyzeChannelBlocks` (one entry per block). -/
def channelPeaks (channelSamples : List ℚ) (blockSize numBlocks : ℕ) : List ℚ :=
  (List.range numBlocks).map (fun b => blockPeak (channelBlock channelSamples blockSize b))

/-- The squares of the `rmss` array entries: `sumSquares / blockSize` per
block (the source stores `√(sumSquares/blockSize)`). -/
def channelRmsSqs (channelSamples : List ℚ) (blockSize numBlocks : ℕ) : List ℚ :=
  (List.range numBlocks).map (fun b =>
    blockSumSquares (channelBlock channelSamples blockSize b) / blockSize)

/-- `peaks[peaks.length - 2]` after the ascending sort (`peaks.length`
equals `numBlocks`).  The JS comparator `(a, b) => a - b` sorts ascending. -/
def secondHighestPeak (channelSamples : List ℚ) (blockSize numBlocks : ℕ) : ℚ :=
  ((channelPeaks channelSamples blockSize numBlocks).insertionSort (· ≤ ·)).getD
    (numBlocks - 2) 0

/-- Translation of `analyzeChannelBlocks(channelSamples, blockSize, numBlocks)`
up to its `dr` formula (applied at the real layer by `drValue`).
`topCount = Math.floor(0.2 * rmss.length)` is `numBlocks / 5`: the float
product `0.2 * n` floors to `⌊n / 5⌋` for every feasible block count.
The top-20% loop sums `rmss[i]²` for the last `topCount` entries of the
ascending sort, i.e. the last `topCount` entries of the sorted squares. -/
def analyzeChannelBlocks (channelSamples : List ℚ) (blockSize numBlocks : ℕ) :
    Except DrError ChanStats :=
  if ((channelPeaks channelSamples blockSize numBlocks).insertionSort (· ≤ ·)).length < 2 then
    .error .tooShort
  else if secondHighestPeak channelSamples blockSize numBlocks = 0 then
    .error .silent
  else if numBlocks / 5 = 0 then
    .error .tooShort
  else
    .ok ⟨secondHighestPeak channelSamples blockSize numBlocks,
      (((channelRmsSqs channelSamples blockSize numBlocks).insertionSort (· ≤ ·)).drop
          (numBlocks - numBlocks / 5)).foldl (· + ·) 0 / ((numBlocks / 5 : ℕ) : ℚ)⟩

/-- `Number(x.toFixed(2))`: ECMA `toFixed` picks the integer `n` closest to
`|x|·100` (ties to the larger `n`) and re-attaches the sign. -/
noncomputable def roundAwayTwo (x : ℝ) : ℝ :=
  (if x < 0 then -1 else 1) * (⌊|x| * 100 + 1 / 2⌋ : ℤ) / 100

/-- `Math.round(x * 100) / 100` (`Math.round` is floor of `x + 1/2`),
the body of `roundTo(value, 2)`. -/
noncomputable def roundTo2 (x : ℝ) : ℝ :=
  (⌊x * 100 + 1 / 2⌋ : ℤ) / 100

/-- Translation of `toDb(value)`: `Number((20 * Math.log10(value)).toFixed(2))`
for positive finite input; `none` models the `-Infinity` returned for
`value <= 0` (non-finite inputs cannot arise in the exact embedding). -/
noncomputable def toDb (value : ℝ) : Option ℝ :=
  if 0 < value then some (roundAwayTwo (20 * Real.logb 10 value)) else none

/-- The `dr = -toDb(r / p2)` value of `analyzeChannelBlocks`, with
`r = √(rmsSum / topCount)`; `none` stands for an infinite dr. -/
noncomputable def drValue (s : ChanStats) : Option ℝ :=
  (toDb (Real.sqrt s.topMeanSq / s.p2)).map (fun x => -x)

/-- The same dr written directly (equal to `drValue` whenever the argument
of `toDb` is positive, which `analyzeChannelBlocks_ok_pos` shows is always
the case for `ok` results). -/
noncomputable def chanDr (s : ChanStats) : ℝ :=
  -(roundAwayTwo (20 * Real.logb 10 (Real.sqrt s.topMeanSq / s.p2)))

/-- `blockSize = Math.max(1, Math.floor(sampleRate * 3))`. -/
def drBlockSize (sampleRate : ℚ) : ℕ :=
  max 1 (⌊sampleRate * 3⌋.toNat)

/-- The `for (const channel of channelData)` loop of `computeDynamicRange`:
each channel is analyzed in source order and the first thrown error
propagates out of the loop. -/
def analyzeChannels (blockSize numBlocks : ℕ) : List (List ℚ) → Except DrError (List ChanStats)
  | [] => .ok []
  | channel :: rest =>
    match analyzeChannelBlocks channel blockSize numBlocks with
    | .error e => .error e
    | .ok stats =>
      match analyzeChannels blockSize numBlocks rest with
      | .error e => .error e
      | .ok others => .ok (stats :: others)

/-- The per-channel `dr` values collected by `computeDynamicRange`: if any
channel's `toDb` produced `null` (non-positive ratio, so the mean would be
`NaN`/`-Infinity`), the whole collection is absent. -/
noncomputable def drList : List ChanStats → Option (List ℝ)
  | [] => some []
  | s :: rest =>
    match drValue s with
    | none => none
    | some d =>
      match drList rest with
      | none => none
      | some ds => some (d :: ds)

/-- Translation of `computeDynamicRange(channelData, sampleRate)`: empty
channel list or fewer than one block per channel throws `TooShortError`;
otherwise every channel is analyzed in order (the first thrown error
propagates) and the report value is `roundTo(mean of per-channel dr, 2)` —
`null` (the outer `none`) when the mean is not finite, i.e. when some
per-channel dr is infinite. -/
noncomputable def computeDynamicRange (channelData : List (List ℚ)) (sampleRate : ℚ) :
    Except DrError (Option ℝ) :=
  if channelData.length = 0 then .error .tooShort
  else if (channelData.headD []).length / drBlockSize sampleRate < 1 then .error .tooShort
  else
    match analyzeChannels (drBlockSize sampleRate)
        ((channelData.headD []).length / drBlockSize sampleRate) channelData with
    | .error e => .error e
    | .ok stats => .ok ((drList stats).map (fun drs => roundTo2 (drs.sum / drs.length)))

end Keson

namespace Keson

/-- C3 counterexample: the claim ("too short exactly when fewer than 2
blocks; a numeric result for every input with ≥ 2 blocks and nonzero second
peak") is false: a channel of two full-scale 3-second blocks (6 samples at
1 Hz, all 1) has 2 blocks and second-highest peak 1 ≠ 0, yet the analysis
throws `TooShortError`, because `topCount = ⌊0.2·2⌋ = 0` blocks qualify for
the top-20% RMS average. -/
theorem analyzeChannelBlocks_two_blocks_fails :
    ¬ ∀ (ch : List ℚ) (bs n : ℕ),
        (analyzeChannelBlocks ch bs n = .error .tooShort ↔ n < 2) ∧
          (2 ≤ n → secondHighestPeak ch bs n ≠ 0 →
            ∃ s, analyzeChannelBlocks ch bs n = .ok s) := by
  intro h
  have heval : analyzeChannelBlocks [(1 : ℚ), 1, 1, 1, 1, 1] 3 2 = .error .tooShort := by
    norm_num [analyzeChannelBlocks, channelPeaks, channelBlock, blockPeak,
      secondHighestPeak, List.range_succ, List.insertionSort, List.orderedInsert]
  exact absurd ((h [1, 1, 1, 1, 1, 1] 3 2).1.mp heval) (by omega)

/-- C3 (amended): per channel, the analysis reports "too short" exactly when
there are fewer than 2 blocks, or when the second-highest peak is nonzero
and there are fewer than 5 blocks (so that `topCount = ⌊0.2·n⌋ = 0`); it
reports "silent" exactly when there are at least 2 blocks and the
second-highest block peak is exactly zero; and it returns a numeric result
exactly for at least 5 blocks with a nonzero second-highest peak. -/
theorem analyzeChannelBlocks_status (ch : List ℚ) (bs n : ℕ) :
    (analyzeChannelBlocks ch bs n = .error .tooShort ↔
        n < 2 ∨ (secondHighestPeak ch bs n ≠ 0 ∧ n < 5)) ∧
      (analyzeChannelBlocks ch bs n = .error .silent ↔
        2 ≤ n ∧ secondHighestPeak ch bs n = 0) ∧
      ((5 ≤ n ∧ secondHighestPeak ch bs n ≠ 0) →
        ∃ s, analyzeChannelBlocks ch bs n = .ok s) := by
  have hlen : ((channelPeaks ch bs n).insertionSort (· ≤ ·)).length = n := by
    rw [List.length_insertionSort, channelPeaks, List.length_map, List.length_range]
  rw [analyzeChannelBlocks, hlen]
  by_cases h2 : n < 2
  · rw [if_pos h2]
    refine ⟨by simp [h2], by simp; omega, by omega⟩
  · rw [if_neg h2]
    by_cases hp : secondHighestPeak ch bs n = 0
    · rw [if_pos hp]
      exact ⟨by simp [hp, h2], by simp [hp, Nat.not_lt.mp h2], fun h => absurd hp h.2⟩
    · rw [if_neg hp]
      by_cases h5 : n / 5 = 0
      · rw [if_pos h5]
        exact ⟨by simp [hp]; omega, by simp [hp], fun h => by omega⟩
      · rw [if_neg h5]
        exact ⟨by simp [hp]; omega, by simp [hp], fun h => ⟨_, rfl⟩⟩

end Keson

namespace Keson

/-! ## The dynamic-range formula (spec-side definitions and comparison)

The claim words the per-channel dynamic range as
`−20·log10(topRMS / secondPeak)`; the following `spec…` definitions write
that formula down literally, to be compared with the code translation
above.  The code agrees up to rounding: `toDb` applies `toFixed(2)` before
the negation, so the per-channel dr the code produces is the *rounded*
value, refuting the claim as written. -/

/-- Spec wording of the per-block peak: the maximum of the absolute sample
values. -/
def specBlockPeak (block : List ℚ) : ℚ :=
  (block.map (fun s => |s|)).foldr max 0

/-- Spec wording of the peaks list: one peak per block. -/
def specPeaks (channelSamples : List ℚ) (blockSize numBlocks : ℕ) : List ℚ :=
  (List.range numBlocks).map (fun b => specBlockPeak (channelBlock channelSamples blockSize b))

/-- Spec wording of the second-highest peak: sort ascending, take the
second entry from the end. -/
def specSecondPeak (channelSamples : List ℚ) (blockSize numBlocks : ℕ) : ℚ :=
  ((specPeaks channelSamples blockSize numBlocks).insertionSort (· ≤ ·)).getD
    (numBlocks - 2) 0

/-- Spec wording of a block's RMS: the square root of the mean square. -/
noncomputable def specBlockRms (block : List ℚ) (blockSize : ℕ) : ℝ :=
  Real.sqrt ((block.map (fun s : ℚ => (s : ℝ) ^ 2)).sum / blockSize)

/-- Spec wording of the RMS list: one RMS value per block. -/
noncomputable def specRmsList (channelSamples : List ℚ) (blockSize numBlocks : ℕ) : List ℝ :=
  (List.range numBlocks).map (fun b =>
    specBlockRms (channelBlock channelSamples blockSize b) blockSize)

/-- Spec wording of topRMS: the root-mean-square of the squared RMS values
of the top 20% loudest blocks (RMS sorted ascending, last `⌊n/5⌋` kept). -/
noncomputable def specTopRMS (channelSamples : List ℚ) (blockSize numBlocks : ℕ) : ℝ :=
  Real.sqrt (((((specRmsList channelSamples blockSize numBlocks).insertionSort (· ≤ ·)).drop
      (numBlocks - numBlocks / 5)).map (fun r => r ^ 2)).sum / ((numBlocks / 5 : ℕ) : ℝ))

/-- Folding `max` over a list from a larger seed shifts the seed out. -/
theorem foldr_max_shift (l : List ℚ) (a b : ℚ) :
    l.foldr max (max a b) = max b (l.foldr max a) := by
  induction l with
  | nil => exact max_comm a b
  | cons c t ih => simp only [List.foldr_cons, ih, max_left_comm]

/-- The imperative peak loop computes the spec's max-of-absolutes. -/
theorem blockPeak_eq_specBlockPeak (block : List ℚ) : blockPeak block = specBlockPeak block := by
  suffices h : ∀ a : ℚ,
      block.foldl (fun peak sample => if |sample| > peak then |sample| else peak) a =
        (block.map (fun s => |s|)).foldr max a by
    exact h 0
  induction block with
  | nil => intro a; rfl
  | cons x t ih =>
    intro a
    have hstep : (if |x| > a then |x| else a) = max a |x| := by
      rcases le_or_lt |x| a with h | h
      · rw [if_neg (not_lt.mpr h), max_eq_left h]
      · rw [if_pos h, max_eq_right h.le]
    simp only [List.foldl_cons, List.map_cons, List.foldr_cons, hstep, ih, foldr_max_shift]

/-- The imperative sum-of-squares loop computes the spec's sum. -/
theorem blockSumSquares_eq_sum (block : List ℚ) :
    blockSumSquares block = (block.map (fun s => s * s)).sum := by
  suffices h : ∀ a : ℚ,
      block.foldl (fun acc sample => acc + sample * sample) a =
        a + (block.map (fun s => s * s)).sum by
    simpa using h 0
  induction block with
  | nil => intro a; simp
  | cons x t ih =>
    intro a
    simp only [List.foldl_cons, List.map_cons, List.sum_cons, ih]
    ring

theorem blockSumSquares_nonneg (block : List ℚ) : 0 ≤ blockSumSquares block := by
  rw [blockSumSquares_eq_sum]
  apply List.sum_nonneg
  intro x hx
  rcases List.mem_map.mp hx with ⟨s, _, rfl⟩
  exact mul_self_nonneg s

theorem channelRmsSqs_nonneg {channelSamples : List ℚ} {blockSize numBlocks : ℕ}
    {q : ℚ} (hq : q ∈ channelRmsSqs channelSamples blockSize numBlocks) : 0 ≤ q := by
  rcases List.mem_map.mp hq with ⟨b, _, rfl⟩
  exact div_nonneg (blockSumSquares_nonneg _) (by positivity)

theorem blockPeak_nonneg (block : List ℚ) : 0 ≤ blockPeak block := by
  rw [blockPeak_eq_specBlockPeak]
  unfold specBlockPeak
  induction (block.map (fun s => |s|)) with
  | nil => simp
  | cons x t ih =>
    simp only [List.foldr_cons, le_max_iff]
    exact Or.inr ih

/-- A monotone map commutes with insertion sort. -/
theorem insertionSort_map_monotone {α β : Type*} [LinearOrder α] [LinearOrder β]
    (f : α → β) (hf : Monotone f) (l : List α) :
    (l.map f).insertionSort (· ≤ ·) = (l.insertionSort (· ≤ ·)).map f := by
  refine List.eq_of_perm_of_sorted ?_ (List.sorted_insertionSort _ _) ?_
  · exact ((l.map f).perm_insertionSort (· ≤ ·)).trans
      ((l.perm_insertionSort (· ≤ ·)).symm.map f)
  · exact List.Pairwise.map f (fun a b hab => hf hab) (List.sorted_insertionSort (· ≤ ·) l)

/-- Real square root of a rational, as a monotone map ℚ → ℝ. -/
noncomputable def sqrtRat (q : ℚ) : ℝ := Real.sqrt (q : ℝ)

/-- The spec's RMS list is the square root, entrywise, of the code's list of
squared RMS values. -/
theorem specRmsList_eq (ch : List ℚ) (bs n : ℕ) :
    specRmsList ch bs n = (channelRmsSqs ch bs n).map sqrtRat := by
  unfold specRmsList channelRmsSqs
  rw [List.map_map]
  refine List.map_congr_left ?_
  intro b _
  simp only [Function.comp_apply]
  unfold specBlockRms sqrtRat
  rw [blockSumSquares_eq_sum]
  congr 1
  push_cast
  rw [List.map_map]
  congr 1
  apply congrArg List.sum
  refine List.map_congr_left ?_
  intro s _
  simp only [Function.comp_apply]
  push_cast
  ring

theorem sqrtRat_monotone : Monotone sqrtRat :=
  fun a b hab => Real.sqrt_le_sqrt (by exact_mod_cast hab)

/-- The spec's topRMS equals the square root of the code's `topMeanSq`
(mean of the top 20% squared RMS values): squaring the entrywise square
roots gives back the rational values, and sorting commutes with the
monotone square root. -/
theorem specTopRMS_eq (ch : List ℚ) (bs n : ℕ) :
    specTopRMS ch bs n =
      Real.sqrt (((((channelRmsSqs ch bs n).insertionSort (· ≤ ·)).drop
          (n - n / 5)).foldl (· + ·) 0 / ((n / 5 : ℕ) : ℚ) : ℚ)) := by
  unfold specTopRMS
  rw [specRmsList_eq, insertionSort_map_monotone _ sqrtRat_monotone, ← List.map_drop]
  congr 1
  rw [List.map_map]
  have hmap : (((channelRmsSqs ch bs n).insertionSort (· ≤ ·)).drop (n - n / 5)).map
      ((fun r => r ^ 2) ∘ sqrtRat) =
      (((channelRmsSqs ch bs n).insertionSort (· ≤ ·)).drop (n - n / 5)).map
        (fun q : ℚ => (q : ℝ)) := by
    refine List.map_congr_left ?_
    intro q hq
    have hmem : q ∈ channelRmsSqs ch bs n :=
      (List.mem_insertionSort (· ≤ ·)).mp (List.mem_of_mem_drop hq)
    have hq0 : (0 : ℝ) ≤ (q : ℝ) := by exact_mod_cast channelRmsSqs_nonneg hmem
    simp only [Function.comp_apply, sqrtRat]
    exact Real.sq_sqrt hq0
  rw [hmap]
  rw [← List.sum_eq_foldl]
  push_cast
  rfl

/-- Inversion of `analyzeChannelBlocks`: an `ok` result pins down what the
returned `p2` and `topMeanSq` are. -/
theorem analyzeChannelBlocks_ok_inv {ch : List ℚ} {bs n : ℕ} {s : ChanStats}
    (h : analyzeChannelBlocks ch bs n = .ok s) :
    2 ≤ n ∧ secondHighestPeak ch bs n ≠ 0 ∧ n / 5 ≠ 0 ∧
      s.p2 = secondHighestPeak ch bs n ∧
      s.topMeanSq = (((channelRmsSqs ch bs n).insertionSort (· ≤ ·)).drop
          (n - n / 5)).foldl (· + ·) 0 / ((n / 5 : ℕ) : ℚ) := by
  have hlen : ((channelPeaks ch bs n).insertionSort (· ≤ ·)).length = n := by
    rw [List.length_insertionSort, channelPeaks, List.length_map, List.length_range]
  rw [analyzeChannelBlocks, hlen] at h
  split_ifs at h with h1 h2 h3
  have hs := Except.ok.inj h
  refine ⟨by omega, h2, h3, ?_, ?_⟩
  · rw [← hs]
  · rw [← hs]

theorem secondHighestPeak_nonneg (ch : List ℚ) (bs n : ℕ) (h2 : 2 ≤ n) :
    0 ≤ secondHighestPeak ch bs n := by
  have hlen : ((channelPeaks ch bs n).insertionSort (· ≤ ·)).length = n := by
    rw [List.length_insertionSort, channelPeaks, List.length_map, List.length_range]
  have hidx : n - 2 < ((channelPeaks ch bs n).insertionSort (· ≤ ·)).length := by omega
  unfold secondHighestPeak
  rw [List.getD_eq_getElem?_getD, List.getElem?_eq_getElem hidx, Option.getD_some]
  have hmem : ((channelPeaks ch bs n).insertionSort (· ≤ ·)).get ⟨n - 2, hidx⟩ ∈
      channelPeaks ch bs n :=
    (List.mem_insertionSort (· ≤ ·)).mp (List.get_mem _ _ _)
  rw [List.get_eq_getElem] at hmem
  rcases List.mem_map.mp hmem with ⟨b, _, hb⟩
  rw [← hb]
  exact blockPeak_nonneg _

theorem foldr_max_cases (l : List ℚ) (a : ℚ) : l.foldr max a = a ∨ l.foldr max a ∈ l := by
  induction l with
  | nil => exact Or.inl rfl
  | cons x t ih =>
    rcases le_total x (t.foldr max a) with h | h
    · rw [List.foldr_cons, max_eq_right h]
      rcases ih with h2 | h2
      · exact Or.inl h2
      · exact Or.inr (List.mem_cons_of_mem x h2)
    · rw [List.foldr_cons, max_eq_left h]
      exact Or.inr (List.mem_cons_self x t)

/-- A block with a positive peak has a positive sum of squares. -/
theorem blockSumSquares_pos_of_peak_pos {block : List ℚ} (h : 0 < blockPeak block) :
    0 < blockSumSquares block := by
  rw [blockPeak_eq_specBlockPeak] at h
  unfold specBlockPeak at h
  rcases foldr_max_cases (block.map (fun s => |s|)) 0 with he | he
  · rw [he] at h
    exact absurd h (lt_irrefl 0)
  · rcases List.mem_map.mp he with ⟨s, hs, habs⟩
    have hne : s ≠ 0 := by
      intro h0
      rw [h0, abs_zero] at habs
      rw [← habs] at h
      exact absurd h (lt_irrefl 0)
    calc (0 : ℚ) < s * s := mul_self_pos.mpr hne
      _ ≤ (block.map (fun t => t * t)).sum :=
          List.single_le_sum
            (fun x hx => by
              rcases List.mem_map.mp hx with ⟨t, _, rfl⟩
              exact mul_self_nonneg t)
            _ (List.mem_map.mpr ⟨s, hs, rfl⟩)
      _ = blockSumSquares block := (blockSumSquares_eq_sum block).symm

theorem sorted_le_last {S : List ℚ} (hs : S.Sorted (· ≤ ·)) {x : ℚ} (hx : x ∈ S)
    (hlen : 0 < S.length) : x ≤ S.get ⟨S.length - 1, by omega⟩ := by
  rcases List.mem_iff_get.mp hx with ⟨i, rfl⟩
  refine hs.rel_get_of_le ?_
  rcases i with ⟨iv, hiv⟩
  exact Fin.mk_le_mk.mpr (by omega)

theorem get_last_mem_drop {S : List ℚ} {k : ℕ} (hk : 0 < k) (hkle : k ≤ S.length) :
    S.get ⟨S.length - 1, by omega⟩ ∈ S.drop (S.length - k) := by
  have hdl : (S.drop (S.length - k)).length = k := by
    rw [List.length_drop]
    omega
  have hidx : k - 1 < (S.drop (S.length - k)).length := by omega
  have hget : (S.drop (S.length - k)).get ⟨k - 1, hidx⟩ = S.get ⟨S.length - 1, by omega⟩ := by
    simp only [List.get_eq_getElem, List.getElem_drop]
    congr 1
    omega
  rw [← hget]
  exact List.get_mem _ _ _

/-- In a sorted list of nonnegatives with a positive member, the sum of the
last `k` entries is positive. -/
theorem drop_sum_pos {S : List ℚ} (hs : S.Sorted (· ≤ ·)) {k : ℕ} (hk : 0 < k)
    (hkle : k ≤ S.length) (hnonneg : ∀ x ∈ S, 0 ≤ x) {y : ℚ} (hy : y ∈ S) (hypos : 0 < y) :
    0 < (S.drop (S.length - k)).sum := by
  have hlen : 0 < S.length := lt_of_lt_of_le hk hkle
  have hMy : y ≤ S.get ⟨S.length - 1, by omega⟩ := sorted_le_last hs hy hlen
  have hMsum : S.get ⟨S.length - 1, by omega⟩ ≤ (S.drop (S.length - k)).sum :=
    List.single_le_sum (fun x hx => hnonneg x (List.mem_of_mem_drop hx)) _
      (get_last_mem_drop hk hkle)
  linarith

/-- When the second-highest peak is nonzero, the top-20% mean of squared RMS
values is positive (the block achieving that peak has positive energy and
the sorted tail dominates it). -/
theorem topMeanSq_pos {ch : List ℚ} {bs n : ℕ} (hbs : 0 < bs) (h2 : 2 ≤ n)
    (hk : n / 5 ≠ 0) (hp2 : secondHighestPeak ch bs n ≠ 0) :
    0 < (((channelRmsSqs ch bs n).insertionSort (· ≤ ·)).drop (n - n / 5)).foldl (· + ·) 0 /
      ((n / 5 : ℕ) : ℚ) := by
  have hSlen : ((channelRmsSqs ch bs n).insertionSort (· ≤ ·)).length = n := by
    rw [List.length_insertionSort, channelRmsSqs, List.length_map, List.length_range]
  have hp2pos : 0 < secondHighestPeak ch bs n :=
    lt_of_le_of_ne (secondHighestPeak_nonneg ch bs n h2) (Ne.symm hp2)
  have hlenP : ((channelPeaks ch bs n).insertionSort (· ≤ ·)).length = n := by
    rw [List.length_insertionSort, channelPeaks, List.length_map, List.length_range]
  have hidx : n - 2 < ((channelPeaks ch bs n).insertionSort (· ≤ ·)).length := by omega
  have hp2mem : secondHighestPeak ch bs n ∈ channelPeaks ch bs n := by
    have : secondHighestPeak ch bs n =
        ((channelPeaks ch bs n).insertionSort (· ≤ ·)).get ⟨n - 2, hidx⟩ := by
      unfold secondHighestPeak
      rw [List.getD_eq_getElem?_getD, List.getElem?_eq_getElem hidx, Option.getD_some]
      rw [List.get_eq_getElem]
    rw [this]
    exact (List.mem_insertionSort (· ≤ ·)).mp (List.get_mem _ _ _)
  rcases List.mem_map.mp hp2mem with ⟨b, hbmem, hb⟩
  have hpeakpos : 0 < blockPeak (channelBlock ch bs b) := hb ▸ hp2pos
  have hsumpos := blockSumSquares_pos_of_peak_pos hpeakpos
  have hrmsmem : blockSumSquares (channelBlock ch bs b) / (bs : ℚ) ∈ channelRmsSqs ch bs n :=
    List.mem_map.mpr ⟨b, hbmem, rfl⟩
  have hrmspos : 0 < blockSumSquares (channelBlock ch bs b) / (bs : ℚ) :=
    div_pos hsumpos (by exact_mod_cast hbs)
  have hsum : 0 < ((((channelRmsSqs ch bs n).insertionSort (· ≤ ·))).drop (n - n / 5)).sum := by
    have := drop_sum_pos (List.sorted_insertionSort (· ≤ ·) (channelRmsSqs ch bs n))
      (Nat.pos_of_ne_zero hk) (le_trans (Nat.div_le_self n 5) (le_of_eq hSlen.symm))
      (fun x hx => channelRmsSqs_nonneg ((List.mem_insertionSort (· ≤ ·)).mp hx))
      ((List.mem_insertionSort (· ≤ ·)).mpr hrmsmem) hrmspos
    rwa [hSlen] at this
  rw [← List.sum_eq_foldl]
  exact div_pos hsum (by exact_mod_cast Nat.pos_of_ne_zero hk)

/-- An `ok` result of `analyzeChannelBlocks` always carries positive `p2`
and `topMeanSq` (so `toDb` never returns `null` on it). -/
theorem analyzeChannelBlocks_ok_pos {ch : List ℚ} {bs n : ℕ} {s : ChanStats} (hbs : 0 < bs)
    (h : analyzeChannelBlocks ch bs n = .ok s) : 0 < s.p2 ∧ 0 < s.topMeanSq := by
  obtain ⟨h2, hne, hk, hp2, hq⟩ := analyzeChannelBlocks_ok_inv h
  constructor
  · rw [hp2]
    exact lt_of_le_of_ne (secondHighestPeak_nonneg ch bs n h2) (Ne.symm hne)
  · rw [hq]
    exact topMeanSq_pos hbs h2 hk hne

theorem drValue_eq_chanDr {s : ChanStats} (hp2 : 0 < s.p2) (hq : 0 < s.topMeanSq) :
    drValue s = some (chanDr s) := by
  unfold drValue toDb chanDr
  rw [if_pos (div_pos (Real.sqrt_pos.mpr (by exact_mod_cast hq)) (by exact_mod_cast hp2))]
  rfl

/-- The spec's second peak and the code's agree (the only difference is the
direction the per-block max is folded). -/
theorem specSecondPeak_eq (ch : List ℚ) (bs n : ℕ) :
    specSecondPeak ch bs n = secondHighestPeak ch bs n := by
  unfold specSecondPeak secondHighestPeak specPeaks channelPeaks
  congr 2
  refine List.map_congr_left ?_
  intro b _
  exact (blockPeak_eq_specBlockPeak _).symm

/-- Every per-channel stats record in an `ok` result of the channel loop
came from `analyzeChannelBlocks` on one of the channels. -/
theorem analyzeChannels_ok_mem {bs n : ℕ} :
    ∀ {cs : List (List ℚ)} {stats : List ChanStats},
      analyzeChannels bs n cs = .ok stats →
        ∀ s ∈ stats, ∃ c ∈ cs, analyzeChannelBlocks c bs n = .ok s := by
  intro cs
  induction cs with
  | nil =>
    intro stats h s hs
    cases Except.ok.inj h
    simp at hs
  | cons c rest ih =>
    intro stats h s hs
    rw [analyzeChannels] at h
    cases hc : analyzeChannelBlocks c bs n with
    | error e =>
      rw [hc] at h
      exact Except.noConfusion h
    | ok st =>
      rw [hc] at h
      cases hrest : analyzeChannels bs n rest with
      | error e =>
        rw [hrest] at h
        exact Except.noConfusion h
      | ok others =>
        rw [hrest] at h
        cases Except.ok.inj h
        rcases List.mem_cons.mp hs with rfl | hmem
        · exact ⟨c, List.mem_cons_self c rest, hc⟩
        · rcases ih hrest s hmem with ⟨c', hc', hok⟩
          exact ⟨c', List.mem_cons_of_mem c hc', hok⟩

theorem drList_all_some :
    ∀ {stats : List ChanStats}, (∀ s ∈ stats, drValue s = some (chanDr s)) →
      drList stats = some (stats.map chanDr) := by
  intro stats
  induction stats with
  | nil => intro _; rfl
  | cons s rest ih =>
    intro hall
    rw [drList, hall s (List.mem_cons_self s rest),
      ih (fun x hx => hall x (List.mem_cons_of_mem s hx))]
    rfl

/-- `10^9542 < 3^20000`, separating `log10 3` from `0.47710`. -/
theorem pow_bound1 : (10 : ℕ) ^ 9542 < 3 ^ 20000 := by norm_num

theorem pow_bound2 : (3 : ℕ) ^ 20000 < 10 ^ 9543 := by norm_num

/-- `9.542 < 20·log10 3 < 9.543`. -/
theorem logb_ten_three_bounds :
    (9542 : ℝ) / 1000 < 20 * Real.logb 10 3 ∧ 20 * Real.logb 10 3 < 9543 / 1000 := by
  have l10 : (0 : ℝ) < Real.log 10 := Real.log_pos (by norm_num)
  have h1 : (10 : ℝ) ^ (9542 : ℕ) < 3 ^ (20000 : ℕ) := by exact_mod_cast pow_bound1
  have h2 : (3 : ℝ) ^ (20000 : ℕ) < 10 ^ (9543 : ℕ) := by exact_mod_cast pow_bound2
  have hl1 : (9542 : ℝ) * Real.log 10 < 20000 * Real.log 3 := by
    have := Real.log_lt_log (by positivity) h1
    rwa [Real.log_pow, Real.log_pow] at this
  have hl2 : (20000 : ℝ) * Real.log 3 < 9543 * Real.log 10 := by
    have := Real.log_lt_log (by positivity) h2
    rwa [Real.log_pow, Real.log_pow] at this
  unfold Real.logb
  have key : 20 * (Real.log 3 / Real.log 10) = 20 * Real.log 3 / Real.log 10 := by ring
  rw [key]
  constructor
  · rw [div_lt_div_iff₀ (by norm_num : (0 : ℝ) < 1000) l10]
    linarith
  · rw [div_lt_div_iff₀ l10 (by norm_num : (0 : ℝ) < 1000)]
    linarith

theorem sqrt_nine : Real.sqrt 9 = 3 := by
  rw [show (9 : ℝ) = 3 ^ 2 by norm_num]
  exact Real.sqrt_sq (by norm_num)

/-- `toFixed(2)` sends `20·log10 3 = 9.5424…` to exactly `9.54`. -/
theorem roundAwayTwo_log3 : roundAwayTwo (20 * Real.logb 10 3) = 954 / 100 := by
  obtain ⟨hlo, hhi⟩ := logb_ten_three_bounds
  unfold roundAwayTwo
  rw [if_neg (by linarith : ¬ 20 * Real.logb 10 3 < 0),
    abs_of_pos (by linarith : (0 : ℝ) < 20 * Real.logb 10 3)]
  rw [show (⌊20 * Real.logb 10 3 * 100 + 1 / 2⌋ : ℤ) = 954 from
    Int.floor_eq_iff.mpr (by constructor <;> push_cast <;> linarith)]
  norm_num

/-- A channel of five 3-sample blocks: four blocks of ones and one block
`[5, 1, 1]`, so secondPeak = 1 and topRMS = 3. -/
def c8Channel : List ℚ := [1, 1, 1, 1, 1, 1, 1, 1, 1, 1, 1, 1, 5, 1, 1]

theorem c8_analyze_eval :
    analyzeChannelBlocks c8Channel 3 5 = .ok ⟨1, 9⟩ := by
  norm_num [c8Channel, analyzeChannelBlocks, channelPeaks, channelRmsSqs, channelBlock,
    blockPeak, blockSumSquares, secondHighestPeak, List.range_succ, List.insertionSort,
    List.orderedInsert]

theorem c8_specSecondPeak_eval : specSecondPeak c8Channel 3 5 = 1 := by
  norm_num [c8Channel, specSecondPeak, specPeaks, specBlockPeak, channelBlock,
    List.range_succ, List.insertionSort, List.orderedInsert]

theorem c8_specRmsList_eval : specRmsList c8Channel 3 5 = [1, 1, 1, 1, 3] := by
  have h1 : specBlockRms [(1 : ℚ), 1, 1] 3 = 1 := by
    unfold specBlockRms
    norm_num
  have h5 : specBlockRms [(5 : ℚ), 1, 1] 3 = 3 := by
    unfold specBlockRms
    norm_num [sqrt_nine]
  norm_num [c8Channel, specRmsList, channelBlock, List.range_succ, h1, h5]

theorem c8_specTopRMS_eval : specTopRMS c8Channel 3 5 = 3 := by
  unfold specTopRMS
  rw [c8_specRmsList_eval]
  have hsort : ([(1 : ℝ), 1, 1, 1, 3].insertionSort (· ≤ ·)) = [1, 1, 1, 1, 3] := by
    norm_num [List.insertionSort, List.orderedInsert]
  rw [hsort]
  norm_num [sqrt_nine]

theorem c8_drValue_eval : drValue ⟨1, 9⟩ = some (-(954 / 100)) := by
  unfold drValue toDb
  have h9 : Real.sqrt ((9 : ℚ) : ℝ) = 3 := by
    rw [show ((9 : ℚ) : ℝ) = 9 by norm_num]
    exact sqrt_nine
  simp only [h9]
  rw [show ((3 : ℝ) / ((1 : ℚ) : ℝ)) = 3 by norm_num]
  rw [if_pos (by norm_num : (0 : ℝ) < 3), Option.map_some']
  rw [roundAwayTwo_log3]

/-- C8 counterexample: the claim's per-channel formula
`−20·log10(topRMS/secondPeak)` omits the rounding that the code's `toDb`
performs (`toFixed(2)` before negation).  On `c8Channel` (5 blocks of 3,
secondPeak 1, topRMS 3) the analysis succeeds with stats `⟨1, 9⟩`, the code
produces exactly `−9.54`, but `−20·log10 3 = −9.5424…` is strictly between
`−9.543` and `−9.542`, so the two differ. -/
theorem drValue_not_unrounded :
    analyzeChannelBlocks c8Channel 3 5 = .ok ⟨1, 9⟩ ∧
      drValue ⟨1, 9⟩ ≠
        some (-(20 * Real.logb 10 (specTopRMS c8Channel 3 5 / specSecondPeak c8Channel 3 5))) := by
  refine ⟨c8_analyze_eval, ?_⟩
  rw [c8_drValue_eval, c8_specTopRMS_eval, c8_specSecondPeak_eval]
  rw [show ((3 : ℝ) / ((1 : ℚ) : ℝ)) = 3 by norm_num]
  intro hcontra
  have heq : (954 : ℝ) / 100 = 20 * Real.logb 10 3 := by
    have := Option.some.inj hcontra
    linarith [neg_injective this]
  obtain ⟨hlo, _⟩ := logb_ten_three_bounds
  rw [← heq] at hlo
  norm_num at hlo

/-- C8 (amended): whenever `analyzeChannelBlocks` produces a result, the
per-channel dynamic range equals `−(20·log10(topRMS/secondPeak) rounded to
2 decimals by toFixed)` with topRMS and secondPeak exactly as the claim
words them; and whenever the channel loop succeeds, the reported dynamic
range is the arithmetic mean of those per-channel values, rounded to 2
decimals by `Math.round`. -/
theorem dynamicRange_rounded_formula :
    (∀ (ch : List ℚ) (bs n : ℕ) (s : ChanStats), 0 < bs →
        analyzeChannelBlocks ch bs n = .ok s →
        drValue s = some (-(roundAwayTwo (20 * Real.logb 10
          (specTopRMS ch bs n / specSecondPeak ch bs n))))) ∧
      (∀ (channels : List (List ℚ)) (sampleRate : ℚ) (stats : List ChanStats),
        channels.length ≠ 0 →
        ¬ (channels.headD []).length / drBlockSize sampleRate < 1 →
        analyzeChannels (drBlockSize sampleRate)
            ((channels.headD []).length / drBlockSize sampleRate) channels = .ok stats →
        computeDynamicRange channels sampleRate =
          .ok (some (roundTo2 ((stats.map chanDr).sum / stats.length)))) := by
  constructor
  · intro ch bs n s hbs h
    obtain ⟨h2, hne, hk, hp2eq, hqeq⟩ := analyzeChannelBlocks_ok_inv h
    obtain ⟨hp2pos, hqpos⟩ := analyzeChannelBlocks_ok_pos hbs h
    rw [drValue_eq_chanDr hp2pos hqpos]
    unfold chanDr
    rw [specTopRMS_eq ch bs n, specSecondPeak_eq ch bs n, ← hqeq, ← hp2eq]
  · intro channels sr stats hne hnb hok
    unfold computeDynamicRange
    rw [if_neg hne, if_neg hnb, hok]
    have hall : ∀ s ∈ stats, drValue s = some (chanDr s) := by
      intro s hs
      rcases analyzeChannels_ok_mem hok s hs with ⟨c, _, hcok⟩
      have hbs : 0 < drBlockSize sr := by
        unfold drBlockSize
        omega
      obtain ⟨hp2, hq⟩ := analyzeChannelBlocks_ok_pos hbs hcok
      exact drValue_eq_chanDr hp2 hq
    show Except.ok ((drList stats).map (fun drs => roundTo2 (drs.sum / drs.length))) = _
    rw [drList_all_some hall]
    simp only [Option.map_some', List.length_map]

/-- C8 witness: the amended theorem applied to a one-channel input of five
one-sample blocks of ones (sample rate 1/3, so blockSize 1): every
hypothesis is discharged concretely. -/
theorem dynamicRange_rounded_formula_witness :
    drValue ⟨1, 1⟩ = some (-(roundAwayTwo (20 * Real.logb 10
        (specTopRMS [1, 1, 1, 1, 1] 1 5 / specSecondPeak [1, 1, 1, 1, 1] 1 5)))) ∧
      computeDynamicRange [[1, 1, 1, 1, 1]] (1 / 3) =
        .ok (some (roundTo2 ((([⟨1, 1⟩] : List ChanStats).map chanDr).sum /
          ([(⟨1, 1⟩ : ChanStats)] : List ChanStats).length))) := by
  have heval : analyzeChannelBlocks [(1 : ℚ), 1, 1, 1, 1] 1 5 = .ok ⟨1, 1⟩ := by
    norm_num [analyzeChannelBlocks, channelPeaks, channelRmsSqs, channelBlock, blockPeak,
      blockSumSquares, secondHighestPeak, List.range_succ, List.insertionSort,
      List.orderedInsert]
  have hbsize : drBlockSize (1 / 3) = 1 := by
    norm_num [drBlockSize]
  constructor
  · exact (dynamicRange_rounded_formula.1) [1, 1, 1, 1, 1] 1 5 ⟨1, 1⟩ (by norm_num) heval
  · refine (dynamicRange_rounded_formula.2) [[1, 1, 1, 1, 1]] (1 / 3) [⟨1, 1⟩]
      (by norm_num) ?_ ?_
    · rw [hbsize]
      norm_num
    · rw [hbsize]
      show analyzeChannels 1 5 [[1, 1, 1, 1, 1]] = .ok [⟨1, 1⟩]
      rw [analyzeChannels, heval]
      rfl

end Keson

namespace Keson

/-! ## Report Builder

Translation of `buildQualityInfo` and its formatters, together with the
message-template constants it consumes.  `messages.qualityFallbackLabel()`
returns `QUALITY_LABELS.fallback` from the messages module.  String
formatting of numbers (`toFixed`) is embedded by `jsToFixed`.  In the
embedding every function is total, so "never fails" is witnessed by the
construction itself plus the clause-omission behaviour proved below. -/

/-- The status strings stored in `details.dr_status`. -/
inductive DrStatusTag where
  | ok
  | too_short
  | silent_track
  deriving DecidableEq

/-- `QUALITY_LABELS.fallback` from the messages module, returned by
`messages.qualityFallbackLabel()`. -/
def qualityFallbackLabel : String := "≤15 kHz coupure (≤96 kbps)"

/-- The `' • '` separator joining the report clauses. -/
def qualitySep : String := " • "

/-- Fragments of the formatted clauses. -/
def maxFreqHead : String := "max "

/-- Trailing unit of the max-frequency clause. -/
def maxFreqTail : String := " kHz"

/-- Leading text of the dynamic-range clause. -/
def drHead : String := "DR "

/-- The fixed too-short dynamic-range clause. -/
def drTooShortText : String := "DR n/a (too short)"

/-- The fixed silent-track dynamic-range clause. -/
def drSilentText : String := "DR n/a (silent track)"

/-- Trailing unit of the loudness clause. -/
def lufsTail : String := " LUFS"

/-- Decimal point used by `jsToFixed`. -/
def decimalDot : String := "."

/-- Sign used by `jsToFixed`. -/
def minusSign : String := "-"

/-- Left-pads a digit string with zeros to `d` characters. -/
def padZeros (s : String) (d : ℕ) : String :=
  String.mk (List.replicate (d - s.length) '0') ++ s

/-- `q.toFixed(d)`: ECMA `toFixed` renders the integer closest to
`|q| * 10^d` (ties to the larger integer) with `d` decimals and the sign of
`q` re-attached. -/
def jsToFixed (d : ℕ) (q : ℚ) : String :=
  let scaled : ℕ := (⌊|q| * 10 ^ d + 1 / 2⌋).toNat
  let sign : String := if q < 0 then minusSign else ""
  if d = 0 then sign ++ toString scaled
  else sign ++ toString (scaled / 10 ^ d) ++ decimalDot ++ padZeros (toString (scaled % 10 ^ d)) d

/-- Modelled from the spec: `messages.qualityVerdict(key, label)` is called
by `buildQualityInfo` but is absent from the provided sources (the shipped
messages module predates it); spec §4.5 says the report "produces a verdict
label", so the model returns the classifier's display label for the key. -/
def qualityVerdict (_verdictKey : VerdictKey) (verdictLabel : String) : String :=
  verdictLabel

/-- The `details` record assembled by `analyzeTrackQuality` and consumed by
`buildQualityInfo` (only the fields the report text reads are modelled). -/
structure QualityDetails where
  verdict_key : VerdictKey
  verdict_label : String
  max_significant_freq : Option ℚ
  dr_status : DrStatusTag
  dynamic_range : Option ℚ
  lufs : Option ℚ

/-- Translation of `formatMaxFrequency(value)`: `null` for a non-finite
(absent) value, otherwise `max X.X kHz` with the value scaled to kHz. -/
def formatMaxFrequency (value : Option ℚ) : Option String :=
  value.map (fun v => maxFreqHead ++ jsToFixed 1 (v / 1000) ++ maxFreqTail)

/-- Translation of `formatDynamicRange(value, status)`: fixed clauses for
the two failure statuses, `null` for an absent value, otherwise `DR X.X`. -/
def formatDynamicRange (value : Option ℚ) (status : DrStatusTag) : Option String :=
  match status with
  | .too_short => some drTooShortText
  | .silent_track => some drSilentText
  | .ok => value.map (fun v => drHead ++ jsToFixed 1 v)

/-- Translation of `formatLufs(value)`. -/
def formatLufs (value : Option ℚ) : Option String :=
  value.map (fun v => jsToFixed 1 v ++ lufsTail)

/-- The `parts` array of `buildQualityInfo`: each clause is pushed only when
present (the JS truthiness test; every produced clause is a nonempty
string, so only `null` and the empty verdict label are falsy). -/
def reportClauses (details : QualityDetails) : List String :=
  (if qualityVerdict details.verdict_key details.verdict_label = "" then []
    else [qualityVerdict details.verdict_key details.verdict_label]) ++
  (formatMaxFrequency details.max_significant_freq).toList ++
  (formatDynamicRange details.dynamic_range details.dr_status).toList ++
  (formatLufs details.lufs).toList

/-- The value returned by `buildQualityInfo`. -/
structure QualityInfo where
  rating : VerdictKey
  text : String
  details : QualityDetails

/-- Translation of `buildQualityInfo(details)`: join the present clauses
with `' • '`, or fall back to the fixed label when no clause is present. -/
def buildQualityInfo (details : QualityDetails) : QualityInfo :=
  { rating := details.verdict_key
    text :=
      if reportClauses details = [] then qualityFallbackLabel
      else String.intercalate qualitySep (reportClauses details)
    details := details }

/-- C4: the Report Builder is total over every combination of available and
missing sub-results: it always constructs a report carrying the verdict and
the full detail record; the clause list is empty exactly when every
sub-result is missing (empty verdict label, no max frequency, `ok` status
with no dynamic-range value, no loudness) and then the text is the fixed
fallback label; and each available sub-result contributes its formatted
clause to the text. -/
theorem buildQualityInfo_report (details : QualityDetails) :
    ((buildQualityInfo details).text =
        if reportClauses details = [] then qualityFallbackLabel
        else String.intercalate qualitySep (reportClauses details)) ∧
      (reportClauses details = [] ↔
        qualityVerdict details.verdict_key details.verdict_label = "" ∧
          details.max_significant_freq = none ∧
          (details.dr_status = DrStatusTag.ok ∧ details.dynamic_range = none) ∧
          details.lufs = none) ∧
      (∀ t, formatMaxFrequency details.max_significant_freq = some t →
        t ∈ reportClauses details) ∧
      (∀ t, formatDynamicRange details.dynamic_range details.dr_status = some t →
        t ∈ reportClauses details) ∧
      (∀ t, formatLufs details.lufs = some t → t ∈ reportClauses details) ∧
      (buildQualityInfo details).rating = details.verdict_key ∧
      (buildQualityInfo details).details = details := by
  refine ⟨rfl, ?_, ?_, ?_, ?_, rfl, rfl⟩
  · rcases details with ⟨vk, vl, mf, st, dr, lf⟩
    simp only [reportClauses, formatMaxFrequency, formatDynamicRange, formatLufs,
      qualityVerdict, List.append_eq_nil]
    cases mf <;> cases st <;> cases dr <;> cases lf <;> simp [Option.toList]
  · intro t ht
    simp [reportClauses, ht]
  · intro t ht
    simp [reportClauses, ht]
  · intro t ht
    simp [reportClauses, ht]

/-- C4 witness: the theorem instantiated at a detail record whose only
available sub-result is the too-short dynamic-range status; the inner
clause-inclusion hypothesis is discharged definitionally. -/
theorem buildQualityInfo_report_witness :
    (buildQualityInfo
        ⟨VerdictKey.unknown, "", none, DrStatusTag.too_short, none, none⟩).rating
          = VerdictKey.unknown ∧
      drTooShortText ∈ reportClauses
        ⟨VerdictKey.unknown, "", none, DrStatusTag.too_short, none, none⟩ :=
  ⟨(buildQualityInfo_report
      ⟨VerdictKey.unknown, "", none, DrStatusTag.too_short, none, none⟩).2.2.2.2.2.1,
   (buildQualityInfo_report
      ⟨VerdictKey.unknown, "", none, DrStatusTag.too_short, none, none⟩).2.2.2.1
     drTooShortText rfl⟩

end Keson

namespace Keson

/-! ## Spectral Analyzer

Translation of `detectMaxFrequency` and its helpers (`getHannWindow`,
`getFftTables`, `fftRadix2`, `smoothSpectrogram`, `applySavitzkyGolay`,
`computeMean`, `computeStd`).  The mutable `Float64Array`s become functions
`ℕ → ℝ` (entries beyond the array extent are irrelevant junk); the
imperative loops become folds over `List.range` in source iteration order.
The FFT table caches are pure memoizations of `fftCosTable`/`fftSinTable`.
The source's `fftRadix2` throws unless the length is a power of two; the
only caller passes the fixed power of two 2048, for which the size loop
runs over `2, 4, …, 2^log₂ n` exactly as embedded. -/

/-- `windowSize = 2048`. -/
def windowSize : ℕ := 2048

/-- `hopLength = 512`. -/
def hopLength : ℕ := 512

/-- `freqBins = windowSize / 2 + 1`. -/
def freqBins : ℕ := windowSize / 2 + 1

/-- `numFrames = Math.floor((samples.length - windowSize) / hopLength) + 1`
(callers reach this only when `samples.length ≥ windowSize`). -/
def numFrames (sampleCount : ℕ) : ℕ := (sampleCount - windowSize) / hopLength + 1

/-- `getHannWindow(size)`: `0.5 - 0.5·cos(2πi/(size-1))`. -/
noncomputable def hannWindow (size : ℕ) : ℕ → ℝ :=
  fun i => 0.5 - 0.5 * Real.cos ((2 * Real.pi * i) / ((size : ℝ) - 1))

/-- The memoized `cosTable` of `getFftTables(size)`: `cos(-2πi/size)`. -/
noncomputable def fftCosTable (size : ℕ) : ℕ → ℝ :=
  fun i => Real.cos (-(2 * Real.pi * i) / size)

/-- The memoized `sinTable` of `getFftTables(size)`: `sin(-2πi/size)`. -/
noncomputable def fftSinTable (size : ℕ) : ℕ → ℝ :=
  fun i => Real.sin (-(2 * Real.pi * i) / size)

/-- The array swap `[a[i], a[j]] = [a[j], a[i]]` on a function. -/
def swapIdx (f : ℕ → ℝ) (i j : ℕ) : ℕ → ℝ :=
  fun k => if k = i then f j else if k = j then f i else f k

/-- The reversed-carry `while (j & bit) { j &= ~bit; bit >>= 1 } ; j |= bit`
loop of the bit-reversal permutation (clearing a set bit of a power-of-two
mask is subtraction). -/
def revCarry (j bit : ℕ) : ℕ :=
  if _hbit : bit = 0 then j
  else if j &&& bit ≠ 0 then revCarry (j - bit) (bit / 2)
  else j ||| bit
decreasing_by exact Nat.div_lt_self (Nat.pos_of_ne_zero _hbit) one_lt_two

/-- One iteration `i` of the bit-reversal loop: update `j`, swap when
`i < j`.  The state is `(j, real, imag)`. -/
def bitReversalStep (n i : ℕ) (st : ℕ × (ℕ → ℝ) × (ℕ → ℝ)) : ℕ × (ℕ → ℝ) × (ℕ → ℝ) :=
  let j := revCarry st.1 (n >>> 1)
  if i < j then (j, swapIdx st.2.1 i j, swapIdx st.2.2 i j) else (j, st.2.1, st.2.2)

/-- The bit-reversal permutation pass of `fftRadix2` (`for i = 1 … n-1`). -/
def bitReversal (n : ℕ) (re im : ℕ → ℝ) : (ℕ → ℝ) × (ℕ → ℝ) :=
  ((List.range' 1 (n - 1)).foldl (fun st i => bitReversalStep n i st) (0, re, im)).2

/-- One butterfly: with `l = i + k + size/2` and twiddle index
`k·(n/size)`, write `a[l] := a[i+k] - t` and `a[i+k] := a[i+k] + t`
(reads happen before writes; `l ≠ i+k`). -/
noncomputable def butterfly (n size : ℕ) (cosTable sinTable : ℕ → ℝ) (i k : ℕ)
    (st : (ℕ → ℝ) × (ℕ → ℝ)) : (ℕ → ℝ) × (ℕ → ℝ) :=
  let l := i + k + size / 2
  let t := k * (n / size)
  let tpre := st.1 l * cosTable t - st.2 l * sinTable t
  let tpim := st.1 l * sinTable t + st.2 l * cosTable t
  (Function.update (Function.update st.1 l (st.1 (i + k) - tpre)) (i + k) (st.1 (i + k) + tpre),
   Function.update (Function.update st.2 l (st.2 (i + k) - tpim)) (i + k) (st.2 (i + k) + tpim))

/-- `fftRadix2(real, imag, cosTable, sinTable)`: bit-reversal permutation
followed by the butterfly passes for `size = 2, 4, …, n`. -/
noncomputable def fftRadix2 (n : ℕ) (cosTable sinTable : ℕ → ℝ) (re im : ℕ → ℝ) :
    (ℕ → ℝ) × (ℕ → ℝ) :=
  ((List.range (Nat.log2 n)).map (fun p => 2 ^ (p + 1))).foldl (fun st size =>
    (List.range (n / size)).foldl (fun st blockIdx =>
      (List.range (size / 2)).foldl (fun st k =>
        butterfly n size cosTable sinTable (blockIdx * size) k st) st) st)
    ((bitReversal n re im).1, (bitReversal n re im).2)

/-- The frame-filling loop of `detectMaxFrequency`:
`real[i] = samples[offset + i] * window[i]`, `imag[i] = 0`. -/
noncomputable def frameInput (samples : List ℝ) (frame : ℕ) : ℕ → ℝ :=
  fun i =>
    if i < windowSize then samples.getD (frame * hopLength + i) 0 * hannWindow windowSize i
    else 0

/-- The FFT of frame `frame` of the (windowed) samples. -/
noncomputable def frameSpectrum (samples : List ℝ) (frame : ℕ) : (ℕ → ℝ) × (ℕ → ℝ) :=
  fftRadix2 windowSize (fftCosTable windowSize) (fftSinTable windowSize)
    (frameInput samples frame) (fun _ => 0)

/-- `magnitudes[bin][frame] = Math.hypot(real[bin], imag[bin])`. -/
noncomputable def magnitude (samples : List ℝ) (bin frame : ℕ) : ℝ :=
  Real.sqrt ((frameSpectrum samples frame).1 bin ^ 2 + (frameSpectrum samples frame).2 bin ^ 2)

/-- The running `maxAmp` maximum over all frames and bins (frame loop
outside, bin loop inside, starting from 0, exactly as the source). -/
noncomputable def maxAmp (samples : List ℝ) : ℝ :=
  (List.range (numFrames samples.length)).foldl (fun m frame =>
    (List.range freqBins).foldl (fun m bin =>
      if magnitude samples bin frame > m then magnitude samples bin frame else m) m) 0

/-- The boundary clamp of `applySavitzkyGolay`: indices below 0 read entry
0, indices at or beyond the length read the last entry. -/
def clampedIndex (len : ℕ) (idx : ℤ) : ℕ :=
  if idx < 0 then 0 else if (len : ℤ) ≤ idx then len - 1 else idx.toNat

/-- `applySavitzkyGolay(series, windowSize, polyOrder)` at output index `i`:
`Σⱼ coeffs[j] · series[clamp(i + j - half)]` with `half = (windowSize-1)/2`
(the source throws for even windows; the only call passes 11). -/
noncomputable def applySavitzkyGolay (series : ℕ → ℝ) (len sgWindow sgOrder i : ℕ) : ℝ :=
  (List.range sgWindow).foldl (fun acc j =>
    acc + ((getSavitzkyGolayCoefficients sgWindow sgOrder).getD j 0 : ℝ) *
      series (clampedIndex len ((i : ℤ) + j - ((sgWindow : ℤ) - 1) / 2))) 0

/-- `dbMatrix[bin][frame] = 20·log10(max(1e-12, magnitude / maxAmp))`. -/
noncomputable def dbMatrix (samples : List ℝ) (bin frame : ℕ) : ℝ :=
  20 * Real.logb 10 (max 1e-12 (magnitude samples bin frame / maxAmp samples))

/-- `smoothSpectrogram`: per frame, the across-bin column is smoothed with
the Savitzky–Golay filter (window 11, order 2). -/
noncomputable def smoothedDb (samples : List ℝ) (bin frame : ℕ) : ℝ :=
  applySavitzkyGolay (fun b => dbMatrix samples b frame) freqBins 11 2 bin

/-- `computeMean(smoothed)`: sum over the bins-by-frames matrix divided by
the entry count. -/
noncomputable def smoothedMean (samples : List ℝ) : ℝ :=
  (((List.range freqBins).map (fun bin =>
      ((List.range (numFrames samples.length)).map (fun frame =>
        smoothedDb samples bin frame)).sum)).sum) /
    ((freqBins : ℝ) * numFrames samples.length)

/-- `computeStd(smoothed, mean)`: root of the mean squared deviation. -/
noncomputable def smoothedStd (samples : List ℝ) : ℝ :=
  Real.sqrt ((((List.range freqBins).map (fun bin =>
      ((List.range (numFrames samples.length)).map (fun frame =>
        (smoothedDb samples bin frame - smoothedMean samples) ^ 2)).sum)).sum) /
    ((freqBins : ℝ) * numFrames samples.length))

/-- `freq = (bin * sampleRate) / windowSize`. -/
noncomputable def binFreq (sampleRate : ℝ) (bin : ℕ) : ℝ :=
  bin * sampleRate / windowSize

/-- `threshold = (meanDb + 1.5·stdDb) - 18·(freq / nyquist)`. -/
noncomputable def binThreshold (samples : List ℝ) (sampleRate : ℝ) (bin : ℕ) : ℝ :=
  smoothedMean samples + 1.5 * smoothedStd samples -
    18 * (binFreq sampleRate bin / (sampleRate / 2))

/-- The bin/frame scan of `detectMaxFrequency`: `maxSignificant` is
overwritten with `freq(bin)` whenever some frame of that bin exceeds the
bin's threshold; bins are visited in increasing order. -/
noncomputable def maxSignificantFreq (samples : List ℝ) (sampleRate : ℝ) : Option ℝ :=
  (List.range freqBins).foldl (fun ms bin =>
    (List.range (numFrames samples.length)).foldl (fun ms frame =>
      if smoothedDb samples bin frame > binThreshold samples sampleRate bin then
        some (binFreq sampleRate bin)
      else ms) ms) none

/-- The final `return maxSignificant ? Math.ceil(maxSignificant) : null`:
both `null` and the value `0` (the DC bin's frequency) are falsy. -/
noncomputable def ceilOrAbsent (freq : Option ℝ) : Option ℤ :=
  match freq with
  | none => none
  | some f => if f = 0 then none else some ⌈f⌉

/-- Translation of `detectMaxFrequency(samples, sampleRate)`. -/
noncomputable def detectMaxFrequency (samples : List ℝ) (sampleRate : ℝ) : Option ℤ :=
  if samples.length < windowSize then none
  else if numFrames samples.length = 0 then none
  else if maxAmp samples ≤ 0 then none
  else ceilOrAbsent (maxSignificantFreq samples sampleRate)

/-- Bin `bin` carries significant energy: some frame of the smoothed
spectrogram exceeds the bin's frequency-adjusted threshold. -/
noncomputable def significantAt (samples : List ℝ) (sampleRate : ℝ) (bin : ℕ) : Prop :=
  ∃ frame, frame < numFrames samples.length ∧
    smoothedDb samples bin frame > binThreshold samples sampleRate bin

end Keson

namespace Keson

/-- A fold preserves any invariant its steps preserve. -/
theorem foldl_invariant {α σ : Type*} (P : σ → Prop) (f : σ → α → σ) (l : List α) (s : σ)
    (h0 : P s) (hstep : ∀ s a, a ∈ l → P s → P (f s a)) : P (l.foldl f s) := by
  induction l generalizing s with
  | nil => exact h0
  | cons a t ih =>
    exact ih (f s a) (hstep s a (by simp) h0) (fun s' b hb => hstep s' b (by simp [hb]))

/-- Reading any index of an all-zero sample list gives 0. -/
theorem getD_zero_of_all_zero {l : List ℝ} (h : ∀ x ∈ l, x = 0) (k : ℕ) : l.getD k 0 = 0 := by
  rw [List.getD_eq_getElem?_getD]
  rcases hk : l[k]? with _ | x
  · rfl
  · have hx : x ∈ l := List.getElem?_mem hk
    simp [h x hx]

/-- Both component arrays of an FFT state are identically zero. -/
def ZeroPair (st : (ℕ → ℝ) × (ℕ → ℝ)) : Prop := ∀ i, st.1 i = 0 ∧ st.2 i = 0

/-- Swapping entries of an all-zero array leaves it all-zero. -/
theorem swapIdx_zero {f : ℕ → ℝ} (h : ∀ i, f i = 0) (i j k : ℕ) : swapIdx f i j k = 0 := by
  unfold swapIdx
  split_ifs <;> exact h _

/-- The bit-reversal pass maps zero arrays to zero arrays. -/
theorem bitReversal_zero {re im : ℕ → ℝ} (hre : ∀ i, re i = 0) (him : ∀ i, im i = 0) (n : ℕ) :
    ZeroPair (bitReversal n re im) := by
  unfold bitReversal
  refine foldl_invariant (fun st : ℕ × (ℕ → ℝ) × (ℕ → ℝ) => ZeroPair st.2)
    (fun st i => bitReversalStep n i st) (List.range' 1 (n - 1)) (0, re, im)
    (fun i => ⟨hre i, him i⟩) ?_
  intro s a _ hP
  dsimp only [bitReversalStep]
  split_ifs
  · exact fun i =>
      ⟨swapIdx_zero (fun x => (hP x).1) _ _ i, swapIdx_zero (fun x => (hP x).2) _ _ i⟩
  · exact hP

/-- A butterfly step maps a zero state to a zero state (all written values
are linear combinations of zero entries). -/
theorem butterfly_zero {st : (ℕ → ℝ) × (ℕ → ℝ)} (h : ZeroPair st)
    (n size : ℕ) (cosTable sinTable : ℕ → ℝ) (i k : ℕ) :
    ZeroPair (butterfly n size cosTable sinTable i k st) := by
  dsimp only [butterfly]
  intro x
  constructor <;>
  · simp only [Function.update_apply]
    split_ifs <;> simp [(h _).1, (h _).2]

/-- The whole FFT maps zero input to zero output. -/
theorem fftRadix2_zero {re im : ℕ → ℝ} (hre : ∀ i, re i = 0) (him : ∀ i, im i = 0)
    (n : ℕ) (cosTable sinTable : ℕ → ℝ) :
    ZeroPair (fftRadix2 n cosTable sinTable re im) := by
  unfold fftRadix2
  refine foldl_invariant ZeroPair _ _ _ ?_ ?_
  · have h := bitReversal_zero hre him n
    exact fun i => ⟨(h i).1, (h i).2⟩
  · intro s size _ hP
    refine foldl_invariant ZeroPair _ _ _ hP ?_
    intro s' blockIdx _ hP'
    refine foldl_invariant ZeroPair _ _ _ hP' ?_
    intro s'' k _ hP''
    exact butterfly_zero hP'' _ _ _ _ _ _

/-- Every magnitude of a pure-silence input is zero. -/
theorem magnitude_zero {samples : List ℝ} (h : ∀ x ∈ samples, x = 0) (bin frame : ℕ) :
    magnitude samples bin frame = 0 := by
  have hz : ZeroPair (frameSpectrum samples frame) := by
    refine fftRadix2_zero ?_ (fun _ => rfl) _ _ _
    intro i
    unfold frameInput
    split_ifs
    · rw [getD_zero_of_all_zero h, zero_mul]
    · rfl
  unfold magnitude
  rw [(hz bin).1, (hz bin).2]
  simp

/-- The global maximum magnitude of a pure-silence input is zero. -/
theorem maxAmp_zero {samples : List ℝ} (h : ∀ x ∈ samples, x = 0) : maxAmp samples = 0 := by
  unfold maxAmp
  refine foldl_invariant (fun m => m = 0) _ _ _ rfl ?_
  intro m frame _ hm
  refine foldl_invariant (fun m => m = 0) _ _ _ hm ?_
  intro m' bin _ hm'
  rw [magnitude_zero h, hm']
  simp

/-- C5: the Spectral Analyzer returns the absence value for every input
shorter than `windowSize` samples, and for every pure-silence (all-zero)
input of any length — in particular without raising (the embedding is a
total function; the short-input and zero-`maxAmp` guards return `none`). -/
theorem detectMaxFrequency_absence (samples : List ℝ) (sampleRate : ℝ) :
    (samples.length < windowSize → detectMaxFrequency samples sampleRate = none) ∧
      ((∀ x ∈ samples, x = 0) → detectMaxFrequency samples sampleRate = none) := by
  constructor
  · intro h
    simp [detectMaxFrequency, if_pos h]
  · intro h
    by_cases hs : samples.length < windowSize
    · simp [detectMaxFrequency, if_pos hs]
    · have hnf : ¬ numFrames samples.length = 0 := by
        unfold numFrames hopLength windowSize
        omega
      rw [detectMaxFrequency, if_neg hs, if_neg hnf, if_pos (le_of_eq (maxAmp_zero h))]

/-- C5 witness: a one-sample input is shorter than the window, and 2048
zero samples are pure silence; both yield the absence value. -/
theorem detectMaxFrequency_absence_witness :
    detectMaxFrequency [(1 : ℝ)] 44100 = none ∧
      detectMaxFrequency (List.replicate 2048 (0 : ℝ)) 44100 = none :=
  ⟨(detectMaxFrequency_absence [(1 : ℝ)] 44100).1 (by norm_num [windowSize]),
   (detectMaxFrequency_absence (List.replicate 2048 0) 44100).2
     (fun x hx => List.eq_of_mem_replicate hx)⟩

/-- The bin scan returns `none` or the frequency of some bin below
`freqBins`. -/
theorem maxSignificantFreq_shape (samples : List ℝ) (sr : ℝ) :
    maxSignificantFreq samples sr = none ∨
      ∃ bin, bin < freqBins ∧ maxSignificantFreq samples sr = some (binFreq sr bin) := by
  unfold maxSignificantFreq
  refine foldl_invariant
    (fun ms => ms = none ∨ ∃ bin, bin < freqBins ∧ ms = some (binFreq sr bin))
    _ _ _ (Or.inl rfl) ?_
  intro ms bin hbin hP
  refine foldl_invariant
    (fun ms => ms = none ∨ ∃ b, b < freqBins ∧ ms = some (binFreq sr b))
    _ _ _ hP ?_
  intro ms' frame _ hP'
  split_ifs
  · exact Or.inr ⟨bin, List.mem_range.mp hbin, rfl⟩
  · exact hP'

/-- If only the DC bin is significant, the scan result is `none` or the DC
frequency 0. -/
theorem maxSignificantFreq_dc (samples : List ℝ) (sr : ℝ)
    (H : ∀ bin, bin < freqBins → significantAt samples sr bin → bin = 0) :
    maxSignificantFreq samples sr = none ∨
      maxSignificantFreq samples sr = some (binFreq sr 0) := by
  unfold maxSignificantFreq
  refine foldl_invariant (fun ms => ms = none ∨ ms = some (binFreq sr 0))
    _ _ _ (Or.inl rfl) ?_
  intro ms bin hbin hP
  by_cases hb : bin = 0
  · subst hb
    refine foldl_invariant (fun ms => ms = none ∨ ms = some (binFreq sr 0)) _ _ _ hP ?_
    intro ms' frame _ hP'
    split_ifs
    · exact Or.inr rfl
    · exact hP'
  · have hnosig : ¬ significantAt samples sr bin :=
      fun hsig => hb (H bin (List.mem_range.mp hbin) hsig)
    refine foldl_invariant (fun ms => ms = none ∨ ms = some (binFreq sr 0)) _ _ _ hP ?_
    intro ms' frame hframe hP'
    rw [if_neg (fun hgt => hnosig ⟨frame, List.mem_range.mp hframe, hgt⟩)]
    exact hP'

/-- C9: whenever the Spectral Analyzer does not return the absence value,
its result is a positive integer number of Hz (ceiling of the qualifying
bin's frequency) at most the ceiling of the Nyquist frequency; and when the
only bin exceeding its threshold is the 0 Hz DC bin, the result is the
absence value, not 0 (the source's truthiness test drops a zero
`maxSignificant`). -/
theorem detectMaxFrequency_range (samples : List ℝ) (sampleRate : ℝ) (hsr : 0 < sampleRate) :
    (∀ z, detectMaxFrequency samples sampleRate = some z → 1 ≤ z ∧ z ≤ ⌈sampleRate / 2⌉) ∧
      ((∀ bin, bin < freqBins → significantAt samples sampleRate bin → bin = 0) →
        detectMaxFrequency samples sampleRate = none) := by
  constructor
  · intro z hz
    rw [detectMaxFrequency] at hz
    split_ifs at hz
    rcases maxSignificantFreq_shape samples sampleRate with hscan | ⟨bin, hbin, hscan⟩
    · rw [hscan] at hz
      exact absurd hz (by simp [ceilOrAbsent])
    · rw [hscan] at hz
      by_cases hf : binFreq sampleRate bin = 0
      · rw [ceilOrAbsent, if_pos hf] at hz
        exact absurd hz (by simp)
      · rw [ceilOrAbsent, if_neg hf] at hz
        have hzval : z = ⌈binFreq sampleRate bin⌉ := Option.some_injective ℤ hz.symm
        have hbinpos : 0 < bin := by
          rcases Nat.eq_zero_or_pos bin with h0 | h0
          · exact absurd (by rw [h0]; simp [binFreq]) hf
          · exact h0
        have hfpos : 0 < binFreq sampleRate bin := by
          unfold binFreq
          have hnum : (0 : ℝ) < (bin : ℝ) * sampleRate :=
            mul_pos (by exact_mod_cast hbinpos) hsr
          positivity
        have hfle : binFreq sampleRate bin ≤ sampleRate / 2 := by
          unfold binFreq
          rw [div_le_iff₀ (by norm_num [windowSize] : (0 : ℝ) < windowSize)]
          have hb1024 : (bin : ℝ) ≤ 1024 := by
            have hb : bin ≤ 1024 := by
              have hb' := hbin
              simp [freqBins, windowSize] at hb'
              omega
            exact_mod_cast hb
          calc (bin : ℝ) * sampleRate ≤ 1024 * sampleRate :=
                mul_le_mul_of_nonneg_right hb1024 hsr.le
            _ = sampleRate / 2 * windowSize := by
                norm_num [windowSize]
                ring
        exact ⟨hzval ▸ Int.one_le_ceil_iff.mpr hfpos, hzval ▸ Int.ceil_le_ceil hfle⟩
  · intro H
    rw [detectMaxFrequency]
    split_ifs with h1 h2 h3
    · rfl
    · rfl
    · rfl
    · rcases maxSignificantFreq_dc samples sampleRate H with hscan | hscan
      · rw [hscan]
        rfl
      · rw [hscan, ceilOrAbsent, if_pos (by simp [binFreq])]

/-- C9 witness: the theorem instantiated at the empty sample list and
sample rate 48000, with positivity discharged. -/
theorem detectMaxFrequency_range_witness :
    (∀ z, detectMaxFrequency [] 48000 = some z → 1 ≤ z ∧ z ≤ ⌈(48000 : ℝ) / 2⌉) ∧
      ((∀ bin, bin < freqBins → significantAt [] 48000 bin → bin = 0) →
        detectMaxFrequency [] 48000 = none) :=
  detectMaxFrequency_range [] 48000 (by norm_num)

end Keson
